import Mathlib

/-!
Shallow embedding of the deployment-copy program (src/copy.rs, src/main.rs,
src/string.rs, src/ui.rs).  Pure functions of the source become Lean
functions; the stateful copy loop becomes an explicit event trace; panics
(`unwrap` on an `Err`, arithmetic underflow in a debug build) are modelled
as `none` / a `false` completion flag.  Machine integers (`usize`) are
modelled as `Nat`; the one `f64` expression of the program (the percentage
computation in `start_copy`) is modelled bit-faithfully by an executable
IEEE 754 binary64 model: round-to-nearest-even conversion of a `u64` to a
53-bit significand, correctly rounded division, correctly rounded
multiplication by 100, and the saturating truncating `as usize` cast.
-/

namespace DeploymentCopy

/-- The ASCII escape character 0x1b, the initiator of ANSI escape sequences. -/
def escChar : Char := Char.ofNat 0x1b

/-- Number of bytes in the UTF-8 encoding of one character. -/
def charBytes (c : Char) : Nat :=
  if c.toNat ≤ 0x7f then 1
  else if c.toNat ≤ 0x7ff then 2
  else if c.toNat ≤ 0xffff then 3
  else 4

/-- UTF-8 byte length of a string: Rust's `str::len` / `String::len`. -/
def byteLen (s : String) : Nat := (s.data.map charBytes).sum

/-- Scanner state of the ANSI-escape stripper: ordinary text, just after an
escape character, or inside a CSI sequence. -/
inductive StripMode where
  | text
  | esc
  | csi

/-- One pass of the ANSI stripper over the character list.  In `text` mode an
escape character switches to `esc` mode and is dropped; in `esc` mode a `[`
opens a CSI sequence, any other character ends a two-character escape; in
`csi` mode characters are dropped until a final byte in `0x40`–`0x7e`. -/
def stripAnsiAux : StripMode → List Char → List Char
  | _, [] => []
  | .text, c :: rest =>
    if c = escChar then stripAnsiAux .esc rest else c :: stripAnsiAux .text rest
  | .esc, c :: rest =>
    if c = '[' then stripAnsiAux .csi rest else stripAnsiAux .text rest
  | .csi, c :: rest =>
    if 0x40 ≤ c.toNat ∧ c.toNat ≤ 0x7e then stripAnsiAux .text rest
    else stripAnsiAux .csi rest

/-- Model of the external crate call `strip_ansi_escapes::strip`, as used by
`Unformattable::unformat` in src/ui.rs: removes terminal styling/colour
escape sequences (ESC `[` … final-byte CSI sequences such as the SGR colour
codes, and two-character ESC sequences) and keeps every other character. -/
def stripAnsi (s : String) : String := ⟨stripAnsiAux .text s.data⟩

/-- The width measurement `line.unformat().len()` of
`UserInterface::render_lines` (src/ui.rs): the UTF-8 byte count of the
string with ANSI escape sequences stripped. -/
def visibleLen (s : String) : Nat := byteLen (stripAnsi s)

/-- `truncate` from src/string.rs: `s.char_indices().nth(max_chars)` is
`None` when the string has at most `max_chars` characters (the string is
returned whole), and otherwise yields the byte index of character number
`max_chars`, so `s[..idx]` keeps exactly the first `max_chars` characters. -/
def truncate (s : String) (maxChars : Nat) : String := ⟨s.data.take maxChars⟩

/-- `get_bytes_string` from src/main.rs: binary-unit byte formatter. -/
def getBytesString (bytes : Nat) : String :=
  if bytes ≥ 1024 ^ 4 then toString (bytes / 1024 ^ 4) ++ "tb"
  else if bytes ≥ 1024 ^ 3 then toString (bytes / 1024 ^ 3) ++ "gb"
  else if bytes ≥ 1024 ^ 2 then toString (bytes / 1024 ^ 2) ++ "mb"
  else if bytes ≥ 1024 then toString (bytes / 1024) ++ "kb"
  else toString bytes ++ "b"

/-- The unit exponent `k` (with suffix b, kb, mb, gb, tb for `k` = 0…4)
selected by the guards of `get_bytes_string`. -/
def unitIdx (bytes : Nat) : Nat :=
  if bytes ≥ 1024 ^ 4 then 4
  else if bytes ≥ 1024 ^ 3 then 3
  else if bytes ≥ 1024 ^ 2 then 2
  else if bytes ≥ 1024 then 1
  else 0

/-- The suffix printed by `get_bytes_string` for unit exponent `k`. -/
def unitSuffix : Nat → String
  | 0 => "b"
  | 1 => "kb"
  | 2 => "mb"
  | 3 => "gb"
  | _ => "tb"

/-- Round the rational `a / b` (for `b > 0`) to the nearest integer, ties
to the even integer: the rounding rule of every IEEE 754 binary64
operation in the default rounding mode. -/
def rndNEDiv (a b : Nat) : Nat :=
  if 2 * (a % b) < b then a / b
  else if b < 2 * (a % b) then a / b + 1
  else if (a / b) % 2 = 0 then a / b else a / b + 1

/-- Fuel-driven floor of the base-2 logarithm (structurally recursive so
that concrete values reduce inside the kernel). -/
def natLog2Aux : Nat → Nat → Nat
  | 0, _ => 0
  | fuel + 1, n => if n ≤ 1 then 0 else natLog2Aux fuel (n / 2) + 1

/-- `⌊log₂ n⌋` for `n ≥ 1` (and 0 at 0). -/
def natLog2 (n : Nat) : Nat := natLog2Aux n n

/-- A positive finite binary64 value `m * 2 ^ e`; the operations below keep
the significand normalized to `2^52 ≤ m < 2^53`. -/
structure PosF64 where
  m : Nat
  e : Int

/-- A nonnegative finite binary64 value; `none` is `+0.0`. -/
abbrev F64 := Option PosF64

/-- Renormalize a rounded significand that may have overflowed to exactly
`2^53` (the rounding of a value just below the next binade). -/
def mkPosF64 (q : Nat) (e : Int) : PosF64 :=
  if q = 2 ^ 53 then ⟨2 ^ 52, e + 1⟩ else ⟨q, e⟩

/-- The conversion `n as f64` of a `u64`: exact for `n < 2^53`, otherwise
the significand is rounded to 53 bits, nearest, ties to even. -/
def ofNatF64 (n : Nat) : F64 :=
  if n = 0 then none
  else if natLog2 n ≤ 52 then
    some ⟨n * 2 ^ (52 - natLog2 n), -((52 - natLog2 n : Nat) : Int)⟩
  else
    some (mkPosF64 (rndNEDiv n (2 ^ (natLog2 n - 52))) ((natLog2 n - 52 : Nat) : Int))

/-- Correctly rounded binary64 division of nonnegative finite values: the
infinitely precise quotient `(m1/m2) * 2^(e1-e2)` lies in `[1, 2)` or
`(1/2, 1)` times a power of two, and its significand is rounded to 53
bits, nearest, ties to even.  A zero dividend gives `+0.0`; a zero divisor
(an infinite or NaN quotient) is outside this model of finite values and
is guarded by the `0 < total` hypotheses of the theorems below. -/
def divF64 : F64 → F64 → F64
  | none, _ => none
  | some _, none => none
  | some p1, some p2 =>
    if p2.m ≤ p1.m then
      some (mkPosF64 (rndNEDiv (p1.m * 2 ^ 52) p2.m) (p1.e - p2.e - 52))
    else
      some (mkPosF64 (rndNEDiv (p1.m * 2 ^ 53) p2.m) (p1.e - p2.e - 53))

/-- Correctly rounded binary64 multiplication by `100.0` (exactly
representable): the exact product `m * 100` is rounded back to a 53-bit
significand, nearest, ties to even. -/
def mul100F64 : F64 → F64
  | none => none
  | some p =>
    some (mkPosF64 (rndNEDiv (p.m * 100) (2 ^ (natLog2 (p.m * 100) - 52)))
      (p.e + ((natLog2 (p.m * 100) - 52 : Nat) : Int)))

/-- Rust's saturating float-to-integer cast `as usize` on a nonnegative
finite binary64 value: truncation toward zero, saturating at
`usize::MAX`. -/
def asUsizeF64 : F64 → Nat
  | none => 0
  | some p =>
    if 0 ≤ p.e then min (p.m * 2 ^ p.e.toNat) (2 ^ 64 - 1)
    else p.m / 2 ^ (-p.e).toNat

/-- The percentage computed on each progress tick of
`CopyQueue::start_copy` (src/copy.rs lines 42-44):
`(proc_info.copied_bytes as f64 / total_bytes as f64) * 100.` cast
`as usize`, with `copied_bytes` and `total_bytes` both `u64`.  A zero
total gives `0/0 = NaN` (cast to 0) for a zero tick and an infinite
quotient (saturating to `usize::MAX`) otherwise. -/
def rustPercentage (c t : Nat) : Nat :=
  if t = 0 then (if c = 0 then 0 else 2 ^ 64 - 1)
  else asUsizeF64 (mul100F64 (divF64 (ofNatF64 c) (ofNatF64 t)))

/-- `CopyQueue` from src/copy.rs: one source path and an ordered list of
destination paths (paths modelled as their display strings). -/
structure CopyQueue where
  source : String
  destinations : List String

/-- Observable events of one `start_copy` run: a destination's copy being
started, a progress callback invocation, and the `oncomplete` callback. -/
inductive CopyEvent where
  | started (dest : String)
  | progress (percentage : Nat) (dest : String)
  | completed
deriving DecidableEq

/-- Environment of a `start_copy` run, abstracting the filesystem primitives
of the external `fs_extra` crate: `getSize` is the result of
`get_size(source)` (`none` models `Err`, on which the source `unwrap`s), and
`copyRun d` gives, for destination `d`, the `copied_bytes` value of each
progress tick that `copy_with_progress` delivers, together with whether the
call returns `Ok` (`false` models `Err`, on which the source `unwrap`s). -/
structure CopyEnv where
  getSize : Option Nat
  copyRun : String → List Nat × Bool

/-- The destination loop of `CopyQueue::start_copy` (src/copy.rs lines
36–49).  For each destination the copy is started and every tick invokes
`onpercentage` with `(copied_bytes as f64 / total_bytes as f64) * 100.`
cast `as usize`, modelled bit-faithfully by `rustPercentage`; an `Err`
from `copy_with_progress` hits `unwrap` and panics, modelled by returning
the events emitted so far with completion flag `false`, so later
destinations are never attempted and `oncomplete` is never reached. -/
def startCopyLoop (env : CopyEnv) (total : Nat) : List String → List CopyEvent × Bool
  | [] => ([CopyEvent.completed], true)
  | d :: ds =>
    if (env.copyRun d).2 then
      (CopyEvent.started d ::
        ((env.copyRun d).1.map fun c => CopyEvent.progress (rustPercentage c total) d) ++
        (startCopyLoop env total ds).1,
       (startCopyLoop env total ds).2)
    else
      (CopyEvent.started d ::
        ((env.copyRun d).1.map fun c => CopyEvent.progress (rustPercentage c total) d),
       false)

/-- `CopyQueue::start_copy` (src/copy.rs): `get_size(source).unwrap()` first
(an `Err` panics before any destination is touched, modelled by the empty
trace with completion flag `false`), then the destination loop, then
`oncomplete()` (the final `completed` event of a run whose flag is `true`). -/
def startCopy (env : CopyEnv) (q : CopyQueue) : List CopyEvent × Bool :=
  match env.getSize with
  | none => ([], false)
  | some total => startCopyLoop env total q.destinations

/-- `BOX_WIDTH` from src/ui.rs. -/
def BOX_WIDTH : Nat := 51

/-- Rust's `usize::checked_sub`. -/
def checkedSub (a b : Nat) : Option Nat := if b ≤ a then some (a - b) else none

/-- The padding-width computation of `UserInterface::render_lines`
(src/ui.rs lines 192–195): `BOX_WIDTH.checked_sub(line.unformat().len())
.unwrap_or(BOX_WIDTH) - 1`.  The trailing unchecked `- 1` underflows when
the preceding expression is `0`; `none` models that panic (debug build). -/
def lineWidth (line : String) : Option Nat :=
  checkedSub ((checkedSub BOX_WIDTH (visibleLen line)).getD BOX_WIDTH) 1

/-- One interior row drawn by `render_lines`:
`format!("{} {}{: <width$}{}", VERTICAL_CHAR, line, "", VERTICAL_CHAR)`,
i.e. the vertical rule, a space, the text, `width` padding spaces, and the
closing vertical rule. -/
def renderLine (line : String) : Option String :=
  (lineWidth line).map fun w => "│ " ++ line ++ ⟨List.replicate w ' '⟩ ++ "│"

/-- `UserInterface::render_lines`: each content line in order. -/
def renderLines (content : List String) : Option (List String) :=
  content.mapM renderLine

/-- A horizontal border of `render_side_top` / `render_side_bottom`
(src/ui.rs): corner, `BOX_WIDTH` horizontal rules, corner; when a split is
given and `0 < pos < length`, the glyph at index `pos` is replaced. -/
def borderLine (lc rc : Char) (split : Option (Nat × Char)) : String :=
  match split with
  | none => ⟨lc :: List.replicate BOX_WIDTH '─' ++ [rc]⟩
  | some (pos, ch) =>
    let base := lc :: List.replicate BOX_WIDTH '─' ++ [rc]
    if base.length > pos ∧ pos > 0 then ⟨base.set pos ch⟩ else ⟨base⟩

/-- `UserInterface::render_side_top`. -/
def renderSideTop (split : Option (Nat × Char)) : String := borderLine '╭' '╮' split

/-- `UserInterface::render_side_bottom`. -/
def renderSideBottom (split : Option (Nat × Char)) : String := borderLine '╰' '╯' split

/-- Model of crossterm's magenta styling of printed content (`.magenta()`):
an SGR foreground-colour escape sequence around the text. -/
def styleMagenta (s : String) : String := "\u001b[35m" ++ s ++ "\u001b[39m"

/-- Model of crossterm's `.dark_grey().bold()` styling of printed content:
SGR escape sequences around the text. -/
def styleDarkGreyBold (s : String) : String :=
  "\u001b[90m" ++ "\u001b[1m" ++ s ++ "\u001b[22m" ++ "\u001b[39m"

/-- `UserInterface::render_header`: top border, the title row
`format!("{} {}{: >width$}{}", …)` with `width = BOX_WIDTH - (title.len() + 1)`
padding spaces after the styled title, and a `├──…──┤` divider rule. -/
def renderHeader : List String :=
  [renderSideTop none,
   "│ " ++ styleMagenta "Deployment Copy" ++
     ⟨List.replicate (BOX_WIDTH - (byteLen "Deployment Copy" + 1)) ' '⟩ ++ "│",
   ⟨'├' :: List.replicate BOX_WIDTH '─' ++ ['┤']⟩]

/-- `arrow_index` of `UserInterface::render_queue` (src/ui.rs lines 275–279)
as a function of `queue.destinations().len()`; the default arm
`(c as f64 / 2.).floor() as usize` is exact integer halving (exact as `f64`
for every list length below `2^53`). -/
def arrowIndexOf : Nat → Nat
  | 0 => 0
  | 1 => 1
  | 2 => 1
  | c => c / 2

/-- `arrow_index` of `render_queue` for a queue. -/
def arrowIndex (q : CopyQueue) : Nat := arrowIndexOf q.destinations.length

/-- `left_column_spacing` of `render_queue` (src/ui.rs lines 281–284):
`queue.source().to_string_lossy().len()` (a UTF-8 byte count) capped at 15,
plus 4. -/
def leftColumnSpacing (q : CopyQueue) : Nat :=
  if byteLen q.source ≤ 15 then byteLen q.source + 4 else 15 + 4

/-- Rust `format!` right-alignment `{: >w$}`: when the displayed text is
shorter than `w` characters, spaces are prepended up to width `w`. -/
def padLeftTo (w : Nat) (s : String) : String :=
  if s.length < w then ⟨List.replicate (w - s.length) ' ' ++ s.data⟩ else s

/-- The row of `render_queue` carrying the arrow:
`format!("{} {}>  ", truncate(source, 15), HORIZONTAL_CHAR.repeat(2))`. -/
def arrowLine (q : CopyQueue) : String :=
  truncate q.source 15 ++ " " ++ "──" ++ ">  "

/-- A non-arrow row of `render_queue`:
`format!("{: >empty_space_padding$}", VERTICAL_CHAR)` with
`empty_space_padding = left_column_spacing - 1`. -/
def nonArrowLine (q : CopyQueue) : String :=
  padLeftTo (leftColumnSpacing q - 1) "│"

/-- The per-destination content rows that `render_queue` feeds to
`render_lines`: the row whose index equals `arrow_index` gets the source
name and arrow, every other row gets the padded vertical rule. -/
def queueRowLines (q : CopyQueue) : List String :=
  q.destinations.enum.map fun p =>
    if p.1 = arrowIndex q then arrowLine q else nonArrowLine q

/-- `UserInterface::render_queue`: top border split at
`left_column_spacing`, the destination rows, bottom border split there. -/
def renderQueue (q : CopyQueue) : Option (List String) := do
  let rows ← renderLines (queueRowLines q)
  return renderSideTop (some (leftColumnSpacing q, '┬')) :: rows ++
    [renderSideBottom (some (leftColumnSpacing q, '┴'))]

/-- `UserInterface::render_pre_copy`: header, the two prompt content lines,
bottom border, then the queue box. -/
def renderPreCopy (q : CopyQueue) : Option (List String) := do
  let body ← renderLines
    ["Do you want to copy to these directories?",
     "Press " ++ styleDarkGreyBold "[Y]" ++ " or " ++ styleDarkGreyBold "[N]" ++
       " on your keyboard"]
  let queueBox ← renderQueue q
  return renderHeader ++ body ++ [renderSideBottom none] ++ queueBox

/-- `UIState` from src/ui.rs.  The `Copying` variant's
`Receiver<CopyingState>` channel handle carries no render-relevant data (it
is never read by `render`), so it is not modelled. -/
inductive UIState where
  | preCopy (q : CopyQueue)
  | copying
  | completed (q : CopyQueue)

/-- `UserInterface` from src/ui.rs: `state: Option<UIState>`. -/
structure UserInterface where
  state : Option UIState

/-- `UserInterface::render` (src/ui.rs lines 151–158): the lines drawn to
the terminal.  Only `Some(PreCopy(queue))` draws anything; every other
state falls to the wildcard arm `_ => Ok(())` and the method merely
flushes. -/
def render (ui : UserInterface) : Option (List String) :=
  match ui.state with
  | some (UIState.preCopy q) => renderPreCopy q
  | _ => some []

/-! Helper lemmas. -/

/-- On a character list without the escape character, the stripper in text
mode is the identity. -/
lemma stripAnsiAux_text_of_noEsc (l : List Char) (h : ∀ c ∈ l, c ≠ escChar) :
    stripAnsiAux .text l = l := by
  induction l with
  | nil => rfl
  | cons c rest ih =>
    have hc : c ≠ escChar := h c (List.mem_cons_self c rest)
    simp only [stripAnsiAux, if_neg hc]
    exact congrArg (c :: ·) (ih fun x hx => h x (List.mem_cons_of_mem c hx))

/-- Stripping is the identity on strings without the escape character. -/
lemma stripAnsi_of_noEsc (s : String) (h : ∀ c ∈ s.data, c ≠ escChar) :
    stripAnsi s = s := by
  show String.mk (stripAnsiAux .text s.data) = s
  rw [stripAnsiAux_text_of_noEsc s.data h]

/-- Every ASCII character occupies one UTF-8 byte. -/
lemma sum_charBytes_of_ascii (l : List Char) (h : ∀ c ∈ l, c.toNat ≤ 0x7f) :
    (l.map charBytes).sum = l.length := by
  induction l with
  | nil => rfl
  | cons c rest ih =>
    have hc : charBytes c = 1 := by
      unfold charBytes
      rw [if_pos (h c (List.mem_cons_self c rest))]
    simp only [List.map_cons, List.sum_cons, List.length_cons, hc,
      ih fun x hx => h x (List.mem_cons_of_mem c hx)]
    omega

/-- For an all-ASCII string the byte length is the character count. -/
lemma byteLen_of_ascii (s : String) (h : ∀ c ∈ s.data, c.toNat ≤ 0x7f) :
    byteLen s = s.length :=
  sum_charBytes_of_ascii s.data h

/-- Division bound: `a ≤ b * c` gives `a / b ≤ c`. -/
lemma nat_div_le (a b c : Nat) (hb : 0 < b) (h : a ≤ b * c) : a / b ≤ c := by
  calc a / b ≤ b * c / b := Nat.div_le_div_right h
    _ = c := Nat.mul_div_cancel_left c hb

/-- Rounding to nearest never jumps past an integer that bounds the exact
value from above. -/
lemma rndNEDiv_le (a b z : Nat) (hb : 0 < b) (h : a ≤ b * z) : rndNEDiv a b ≤ z := by
  have hq : a / b ≤ z := nat_div_le a b z hb h
  have hd := Nat.div_add_mod a b
  unfold rndNEDiv
  split_ifs with h1 h2 h3
  · exact hq
  · rcases Nat.lt_or_ge (a / b) z with h' | h'
    · omega
    · have hqz : a / b = z := le_antisymm hq h'
      rw [hqz] at hd
      omega
  · exact hq
  · rcases Nat.lt_or_ge (a / b) z with h' | h'
    · omega
    · have hqz : a / b = z := le_antisymm hq h'
      rw [hqz] at hd
      omega

/-- Rounding to nearest never jumps past an integer that bounds the exact
value from below. -/
lemma le_rndNEDiv (a b z : Nat) (hb : 0 < b) (h : b * z ≤ a) : z ≤ rndNEDiv a b := by
  have hq : z ≤ a / b := (Nat.le_div_iff_mul_le hb).mpr (by rw [Nat.mul_comm]; exact h)
  unfold rndNEDiv
  split_ifs <;> omega

/-- Rounding to nearest (ties to even) is monotone in the dividend. -/
lemma rndNEDiv_mono (a a' b : Nat) (h : a ≤ a') :
    rndNEDiv a b ≤ rndNEDiv a' b := by
  have hq : a / b ≤ a' / b := Nat.div_le_div_right h
  rcases Nat.lt_or_ge (a / b) (a' / b) with hlt | hge
  · have h1 : rndNEDiv a b ≤ a / b + 1 := by unfold rndNEDiv; split_ifs <;> omega
    have h2 : a' / b ≤ rndNEDiv a' b := by unfold rndNEDiv; split_ifs <;> omega
    omega
  · have heq : a / b = a' / b := le_antisymm hq hge
    have hda := Nat.div_add_mod a b
    have hda' := Nat.div_add_mod a' b
    have hr : a % b ≤ a' % b := by
      rw [← heq] at hda'
      omega
    unfold rndNEDiv
    rw [heq]
    split_ifs <;> omega

/-- `rndNEDiv` with divisor 1 is exact. -/
lemma rndNEDiv_one (a : Nat) : rndNEDiv a 1 = a := by
  unfold rndNEDiv
  simp [Nat.mod_one, Nat.div_one]

/-- The fuel-driven logarithm brackets its argument between consecutive
powers of two once the fuel covers it. -/
lemma natLog2Aux_spec : ∀ (fuel n : Nat), 0 < n → n ≤ fuel →
    2 ^ natLog2Aux fuel n ≤ n ∧ n < 2 ^ (natLog2Aux fuel n + 1)
  | 0, _, hn, hf => by omega
  | fuel + 1, n, hn, hf => by
    unfold natLog2Aux
    split_ifs with h1
    · simp only [pow_zero, pow_one]
      omega
    · have hrec := natLog2Aux_spec fuel (n / 2) (by omega) (by omega)
      have hd := Nat.div_add_mod n 2
      have ha1 : (2 : Nat) ^ (natLog2Aux fuel (n / 2) + 1) = 2 ^ natLog2Aux fuel (n / 2) * 2 :=
        pow_succ 2 _
      have ha2 : (2 : Nat) ^ (natLog2Aux fuel (n / 2) + 1 + 1) =
          2 ^ (natLog2Aux fuel (n / 2) + 1) * 2 := pow_succ 2 _
      constructor <;> omega

/-- `2 ^ natLog2 n ≤ n < 2 ^ (natLog2 n + 1)` for positive `n`. -/
lemma natLog2_spec (n : Nat) (hn : 0 < n) :
    2 ^ natLog2 n ≤ n ∧ n < 2 ^ (natLog2 n + 1) :=
  natLog2Aux_spec n n hn le_rfl

/-- The value of `n as f64` as a natural number: `n` with its significand
rounded to 53 bits at the scale `2 ^ (natLog2 n - 52)`. -/
def natRound53 (n : Nat) : Nat :=
  rndNEDiv n (2 ^ (natLog2 n - 52)) * 2 ^ (natLog2 n - 52)

/-- Conversion to binary64 is exact below `2^53`. -/
lemma natRound53_of_le (n : Nat) (h : natLog2 n ≤ 52) : natRound53 n = n := by
  unfold natRound53
  rw [Nat.sub_eq_zero_of_le h]
  simp [rndNEDiv_one]

/-- The rounded value never falls below the enclosing power of two. -/
lemma natRound53_lb (n : Nat) (hn : 0 < n) : 2 ^ natLog2 n ≤ natRound53 n := by
  unfold natRound53
  have h1 : 2 ^ natLog2 n ≤ n := (natLog2_spec n hn).1
  have hsplit : 2 ^ (natLog2 n - 52) * 2 ^ (natLog2 n - (natLog2 n - 52)) = 2 ^ natLog2 n := by
    rw [← pow_add]
    congr 1
    omega
  have hz := le_rndNEDiv n (2 ^ (natLog2 n - 52)) (2 ^ (natLog2 n - (natLog2 n - 52)))
    (by positivity) (by rw [hsplit]; exact h1)
  have hmul := Nat.mul_le_mul_right (2 ^ (natLog2 n - 52)) hz
  calc 2 ^ natLog2 n = 2 ^ (natLog2 n - (natLog2 n - 52)) * 2 ^ (natLog2 n - 52) := by
        rw [← pow_add]; congr 1; omega
    _ ≤ _ := hmul

/-- The rounded value never exceeds the next power of two. -/
lemma natRound53_ub (n : Nat) (hn : 0 < n) : natRound53 n ≤ 2 ^ (natLog2 n + 1) := by
  unfold natRound53
  have h1 : n < 2 ^ (natLog2 n + 1) := (natLog2_spec n hn).2
  have hsplit : 2 ^ (natLog2 n - 52) * 2 ^ (natLog2 n + 1 - (natLog2 n - 52)) =
      2 ^ (natLog2 n + 1) := by
    rw [← pow_add]
    congr 1
    omega
  have hz := rndNEDiv_le n (2 ^ (natLog2 n - 52)) (2 ^ (natLog2 n + 1 - (natLog2 n - 52)))
    (by positivity) (by omega)
  have hmul := Nat.mul_le_mul_right (2 ^ (natLog2 n - 52)) hz
  calc rndNEDiv n (2 ^ (natLog2 n - 52)) * 2 ^ (natLog2 n - 52)
      ≤ 2 ^ (natLog2 n + 1 - (natLog2 n - 52)) * 2 ^ (natLog2 n - 52) := hmul
    _ = 2 ^ (natLog2 n + 1) := by rw [← pow_add]; congr 1; omega

/-- Conversion of a `u64` to binary64 is monotone. -/
lemma natRound53_mono (c t : Nat) (h : c ≤ t) : natRound53 c ≤ natRound53 t := by
  rcases Nat.eq_zero_or_pos c with rfl | hc
  · rw [natRound53_of_le 0 (by decide)]
    exact Nat.zero_le _
  · have ht : 0 < t := lt_of_lt_of_le hc h
    have hk : natLog2 c ≤ natLog2 t := by
      by_contra hcon
      push_neg at hcon
      have h1 : 2 ^ natLog2 c ≤ c := (natLog2_spec c hc).1
      have h2 : t < 2 ^ (natLog2 t + 1) := (natLog2_spec t ht).2
      have h3 : 2 ^ (natLog2 t + 1) ≤ 2 ^ natLog2 c :=
        Nat.pow_le_pow_right (by norm_num) (by omega)
      omega
    rcases Nat.lt_or_ge (natLog2 c) (natLog2 t) with hlt | hge
    · calc natRound53 c ≤ 2 ^ (natLog2 c + 1) := natRound53_ub c hc
        _ ≤ 2 ^ natLog2 t := Nat.pow_le_pow_right (by norm_num) (by omega)
        _ ≤ natRound53 t := natRound53_lb t ht
    · have heq : natLog2 c = natLog2 t := le_antisymm hk hge
      by_cases h52 : natLog2 c ≤ 52
      · rw [natRound53_of_le c h52, natRound53_of_le t (heq ▸ h52)]
        exact h
      · unfold natRound53
        rw [heq]
        exact Nat.mul_le_mul_right _ (rndNEDiv_mono c t _ h)

/-- The rational value of a finite binary64 quantity. -/
def valF : F64 → ℚ
  | none => 0
  | some p => (p.m : ℚ) * 2 ^ p.e

/-- Normalized significand. -/
def normP (p : PosF64) : Prop := 2 ^ 52 ≤ p.m ∧ p.m < 2 ^ 53

/-- Renormalization preserves the value. -/
lemma mkPosF64_val (q : Nat) (e : Int) :
    ((mkPosF64 q e).m : ℚ) * 2 ^ (mkPosF64 q e).e = (q : ℚ) * 2 ^ e := by
  unfold mkPosF64
  split_ifs with h
  · subst h
    show ((2 ^ 52 : Nat) : ℚ) * 2 ^ (e + 1) = ((2 ^ 53 : Nat) : ℚ) * 2 ^ e
    push_cast
    rw [zpow_add₀ (two_ne_zero) e 1, zpow_one]
    ring
  · rfl

/-- Renormalization keeps the significand at or above `2^52`. -/
lemma mkPosF64_m_ge (q : Nat) (e : Int) (h : 2 ^ 52 ≤ q) : 2 ^ 52 ≤ (mkPosF64 q e).m := by
  unfold mkPosF64
  split_ifs with h'
  · norm_num
  · exact h

/-- Renormalization keeps the significand below `2^53`. -/
lemma mkPosF64_m_lt (q : Nat) (e : Int) (h : q ≤ 2 ^ 53) : (mkPosF64 q e).m < 2 ^ 53 := by
  unfold mkPosF64
  split_ifs with h'
  · norm_num
  · show q < 2 ^ 53
    omega

/-- Rescaling a value `m * 2 ^ e1` to a smaller exponent `e2`. -/
lemma qval_shift (m : Nat) (e1 e2 : Int) (h : e2 ≤ e1) :
    (m : ℚ) * 2 ^ e1 = ((m * 2 ^ (e1 - e2).toNat : Nat) : ℚ) * 2 ^ e2 := by
  push_cast
  rw [mul_assoc, ← zpow_natCast (2 : ℚ) (e1 - e2).toNat, ← zpow_add₀ (two_ne_zero)]
  congr 2
  omega

/-- Comparison of binary64 values with the smaller exponent on the left,
reduced to naturals. -/
lemma qval_le_iff (m1 m2 : Nat) (e1 e2 : Int) (h : e1 ≤ e2) :
    ((m1 : ℚ) * 2 ^ e1 ≤ (m2 : ℚ) * 2 ^ e2) ↔ m1 ≤ m2 * 2 ^ (e2 - e1).toNat := by
  rw [qval_shift m2 e2 e1 h]
  rw [mul_le_mul_right (by positivity : (0 : ℚ) < 2 ^ e1)]
  exact_mod_cast Iff.rfl

/-- Comparison of binary64 values with the larger exponent on the left,
reduced to naturals. -/
lemma qval_le_iff' (m1 m2 : Nat) (e1 e2 : Int) (h : e2 ≤ e1) :
    ((m1 : ℚ) * 2 ^ e1 ≤ (m2 : ℚ) * 2 ^ e2) ↔ m1 * 2 ^ (e1 - e2).toNat ≤ m2 := by
  rw [qval_shift m1 e1 e2 h]
  rw [mul_le_mul_right (by positivity : (0 : ℚ) < 2 ^ e2)]
  exact_mod_cast Iff.rfl

/-- A binary64 value is at most one exactly when its significand is within
the scale of its (nonpositive) exponent. -/
lemma qval_le_one_iff (m : Nat) (e : Int) (h : e ≤ 0) :
    ((m : ℚ) * 2 ^ e ≤ 1) ↔ m ≤ 2 ^ (-e).toNat := by
  have := qval_le_iff m 1 e 0 h
  simpa using this

/-- A positive `u64` converts to a (some) finite positive double. -/
lemma ofNatF64_some (n : Nat) (hn : 0 < n) : ∃ p, ofNatF64 n = some p := by
  unfold ofNatF64
  rw [if_neg (by omega)]
  split_ifs <;> exact ⟨_, rfl⟩

/-- Conversion yields a normalized significand. -/
lemma ofNatF64_norm (n : Nat) (hn : 0 < n) (p : PosF64) (hp : ofNatF64 n = some p) :
    normP p := by
  unfold ofNatF64 at hp
  rw [if_neg (by omega)] at hp
  have hspec := natLog2_spec n hn
  split_ifs at hp with h52
  · simp only [Option.some.injEq] at hp
    subst hp
    constructor
    · show 2 ^ 52 ≤ n * 2 ^ (52 - natLog2 n)
      calc (2 : Nat) ^ 52 = 2 ^ natLog2 n * 2 ^ (52 - natLog2 n) := by
            rw [← pow_add]; congr 1; omega
        _ ≤ n * 2 ^ (52 - natLog2 n) := Nat.mul_le_mul_right _ hspec.1
    · show n * 2 ^ (52 - natLog2 n) < 2 ^ 53
      calc n * 2 ^ (52 - natLog2 n) < 2 ^ (natLog2 n + 1) * 2 ^ (52 - natLog2 n) :=
            (Nat.mul_lt_mul_right (by positivity)).mpr hspec.2
        _ = 2 ^ 53 := by rw [← pow_add]; congr 1; omega
  · simp only [Option.some.injEq] at hp
    subst hp
    constructor
    · apply mkPosF64_m_ge
      apply le_rndNEDiv _ _ _ (by positivity)
      calc 2 ^ (natLog2 n - 52) * 2 ^ 52 = 2 ^ natLog2 n := by
            rw [← pow_add]; congr 1; omega
        _ ≤ n := hspec.1
    · apply mkPosF64_m_lt
      apply rndNEDiv_le _ _ _ (by positivity)
      calc n ≤ 2 ^ (natLog2 n + 1) := le_of_lt hspec.2
        _ = 2 ^ (natLog2 n - 52) * 2 ^ 53 := by rw [← pow_add]; congr 1; omega

/-- The value of the conversion is the 53-bit rounding of the input. -/
lemma valF_ofNat (n : Nat) : valF (ofNatF64 n) = (natRound53 n : ℚ) := by
  unfold ofNatF64
  by_cases h0 : n = 0
  · subst h0
    rw [if_pos rfl]
    show (0 : ℚ) = ((natRound53 0 : Nat) : ℚ)
    rw [natRound53_of_le 0 (by decide)]
    norm_num
  · rw [if_neg h0]
    split_ifs with h52
    · show ((n * 2 ^ (52 - natLog2 n) : Nat) : ℚ) * 2 ^ (-((52 - natLog2 n : Nat) : Int)) =
        ((natRound53 n : Nat) : ℚ)
      rw [natRound53_of_le n h52]
      push_cast
      rw [mul_assoc, ← zpow_natCast (2 : ℚ) (52 - natLog2 n), ← zpow_add₀ (two_ne_zero)]
      norm_num
    · show ((mkPosF64 (rndNEDiv n (2 ^ (natLog2 n - 52))) ((natLog2 n - 52 : Nat) : Int)).m : ℚ) *
          2 ^ (mkPosF64 (rndNEDiv n (2 ^ (natLog2 n - 52))) ((natLog2 n - 52 : Nat) : Int)).e =
        ((natRound53 n : Nat) : ℚ)
      rw [mkPosF64_val]
      unfold natRound53
      push_cast
      rw [zpow_natCast]

/-- Division of (some) finite positives yields a (some) finite value. -/
lemma divF64_some (p1 p2 : PosF64) : ∃ p, divF64 (some p1) (some p2) = some p := by
  simp only [divF64]
  split_ifs <;> exact ⟨_, rfl⟩

/-- Division of normalized values yields a normalized significand. -/
lemma divF64_norm (p1 p2 p : PosF64) (h1 : normP p1) (h2 : normP p2)
    (hp : divF64 (some p1) (some p2) = some p) : normP p := by
  obtain ⟨h1l, h1u⟩ := h1
  obtain ⟨h2l, h2u⟩ := h2
  have h2pos : 0 < p2.m := lt_of_lt_of_le (by positivity) h2l
  simp only [divF64] at hp
  split_ifs at hp with hm
  · simp only [Option.some.injEq] at hp
    subst hp
    constructor
    · apply mkPosF64_m_ge
      apply le_rndNEDiv _ _ _ h2pos
      exact Nat.mul_le_mul_right _ hm
    · apply mkPosF64_m_lt
      have hb := rndNEDiv_le (p1.m * 2 ^ 52) p2.m (2 ^ 53 - 1) h2pos
        (by
          calc p1.m * 2 ^ 52 ≤ (2 ^ 53 - 1) * 2 ^ 52 := Nat.mul_le_mul_right _ (by omega)
            _ ≤ (2 ^ 53 - 1) * p2.m := Nat.mul_le_mul_left _ h2l
            _ = p2.m * (2 ^ 53 - 1) := Nat.mul_comm _ _)
      exact le_trans hb (Nat.sub_le _ _)
  · push_neg at hm
    simp only [Option.some.injEq] at hp
    subst hp
    constructor
    · apply mkPosF64_m_ge
      apply le_rndNEDiv _ _ _ h2pos
      have hm2 : p2.m ≤ 2 * p1.m := by
        have h53 : (2 : Nat) ^ 53 = 2 * 2 ^ 52 := by norm_num
        omega
      calc p2.m * 2 ^ 52 ≤ 2 * p1.m * 2 ^ 52 := Nat.mul_le_mul_right _ hm2
        _ = p1.m * 2 ^ 53 := by ring
    · apply mkPosF64_m_lt
      apply rndNEDiv_le _ _ _ h2pos
      exact Nat.mul_le_mul_right _ (le_of_lt hm)

/-- The correctly rounded quotient of a value by a no-smaller value (with
normalized significands) never exceeds `1.0`: the nearest-point property of
rounding, since `1.0` is representable. -/
lemma divF64_le_one (p1 p2 p : PosF64) (h1 : normP p1) (h2 : normP p2)
    (hval : (p1.m : ℚ) * 2 ^ p1.e ≤ (p2.m : ℚ) * 2 ^ p2.e)
    (hp : divF64 (some p1) (some p2) = some p) :
    (p.m : ℚ) * 2 ^ p.e ≤ 1 := by
  obtain ⟨h1l, h1u⟩ := h1
  obtain ⟨h2l, h2u⟩ := h2
  have h2pos : 0 < p2.m := lt_of_lt_of_le (by positivity) h2l
  simp only [divF64] at hp
  rcases le_or_lt p1.e p2.e with he | he
  · have hm12 : p1.m ≤ p2.m * 2 ^ (p2.e - p1.e).toNat := (qval_le_iff _ _ _ _ he).mp hval
    split_ifs at hp with hm
    · simp only [Option.some.injEq] at hp
      subst hp
      rw [mkPosF64_val]
      rw [qval_le_one_iff _ _ (by omega)]
      apply rndNEDiv_le _ _ _ h2pos
      have hexp : (-(p1.e - p2.e - 52)).toNat = 52 + (p2.e - p1.e).toNat := by omega
      rw [hexp, pow_add]
      calc p1.m * 2 ^ 52 ≤ p2.m * 2 ^ (p2.e - p1.e).toNat * 2 ^ 52 :=
            Nat.mul_le_mul_right _ hm12
        _ = p2.m * (2 ^ 52 * 2 ^ (p2.e - p1.e).toNat) := by ring
    · simp only [Option.some.injEq] at hp
      subst hp
      rw [mkPosF64_val]
      rw [qval_le_one_iff _ _ (by omega)]
      apply rndNEDiv_le _ _ _ h2pos
      have hexp : (-(p1.e - p2.e - 53)).toNat = 53 + (p2.e - p1.e).toNat := by omega
      rw [hexp, pow_add]
      calc p1.m * 2 ^ 53 ≤ p2.m * 2 ^ (p2.e - p1.e).toNat * 2 ^ 53 :=
            Nat.mul_le_mul_right _ hm12
        _ = p2.m * (2 ^ 53 * 2 ^ (p2.e - p1.e).toNat) := by ring
  · exfalso
    have hm12 : p1.m * 2 ^ (p1.e - p2.e).toNat ≤ p2.m :=
      (qval_le_iff' _ _ _ _ (le_of_lt he)).mp hval
    have hd1 : 1 ≤ (p1.e - p2.e).toNat := by omega
    have h2le : 2 ≤ 2 ^ (p1.e - p2.e).toNat := by
      calc (2 : Nat) = 2 ^ 1 := (pow_one 2).symm
        _ ≤ 2 ^ (p1.e - p2.e).toNat := Nat.pow_le_pow_right (by norm_num) hd1
    have hml : p1.m * 2 ≤ p2.m := le_trans (Nat.mul_le_mul_left _ h2le) hm12
    have h53 : (2 : Nat) ^ 53 = 2 * 2 ^ 52 := by norm_num
    omega

/-- Multiplying a value at most `1.0` by `100.0` and truncating to an
integer gives at most 100: the nearest-point property of rounding, since
`100.0` is representable. -/
lemma mul100_asUsize_le (p : PosF64) (hml : 2 ^ 52 ≤ p.m) (hmu : p.m < 2 ^ 53)
    (hv : (p.m : ℚ) * 2 ^ p.e ≤ 1) :
    asUsizeF64 (mul100F64 (some p)) ≤ 100 := by
  have hmpos : 0 < p.m * 100 := by
    have := lt_of_lt_of_le (by positivity : (0 : Nat) < 2 ^ 52) hml
    positivity
  have he : p.e ≤ -52 := by
    by_contra hcon
    push_neg at hcon
    rcases le_or_lt p.e 0 with he0 | he0
    · have hb := (qval_le_one_iff _ _ he0).mp hv
      have hx : (-p.e).toNat ≤ 51 := by omega
      have hpow : (2 : Nat) ^ (-p.e).toNat ≤ 2 ^ 51 := Nat.pow_le_pow_right (by norm_num) hx
      have h52 : (2 : Nat) ^ 52 = 2 * 2 ^ 51 := by norm_num
      omega
    · have hb := (qval_le_iff' p.m 1 p.e 0 (by omega)).mp (by simpa using hv)
      have h1 : 1 ≤ 2 ^ (p.e - 0).toNat := Nat.one_le_two_pow
      have hm1 : p.m ≤ 1 := by
        calc p.m = p.m * 1 := (Nat.mul_one _).symm
          _ ≤ p.m * 2 ^ (p.e - 0).toNat := Nat.mul_le_mul_left _ h1
          _ ≤ 1 := hb
      have h52 : (1 : Nat) < 2 ^ 52 := by norm_num
      omega
  show asUsizeF64 (some (mkPosF64 (rndNEDiv (p.m * 100) (2 ^ (natLog2 (p.m * 100) - 52)))
    (p.e + ((natLog2 (p.m * 100) - 52 : Nat) : Int)))) ≤ 100
  have hk : natLog2 (p.m * 100) ≤ 59 := by
    have hspec := natLog2_spec (p.m * 100) hmpos
    by_contra hcon
    push_neg at hcon
    have hge : (2 : Nat) ^ 60 ≤ 2 ^ natLog2 (p.m * 100) :=
      Nat.pow_le_pow_right (by norm_num) (by omega)
    have h60 : (2 : Nat) ^ 60 = 2 ^ 53 * 128 := by norm_num
    omega
  have hs7 : natLog2 (p.m * 100) - 52 ≤ 7 := by omega
  have hm2e : p.m ≤ 2 ^ (-p.e).toNat := (qval_le_one_iff _ _ (by omega)).mp hv
  have hq : rndNEDiv (p.m * 100) (2 ^ (natLog2 (p.m * 100) - 52)) ≤
      100 * 2 ^ ((-p.e).toNat - (natLog2 (p.m * 100) - 52)) := by
    apply rndNEDiv_le _ _ _ (by positivity)
    calc p.m * 100 ≤ 2 ^ (-p.e).toNat * 100 := Nat.mul_le_mul_right _ hm2e
      _ = 2 ^ (natLog2 (p.m * 100) - 52) *
          (100 * 2 ^ ((-p.e).toNat - (natLog2 (p.m * 100) - 52))) := by
          have ha : (2 : Nat) ^ (-p.e).toNat = 2 ^ (natLog2 (p.m * 100) - 52) *
              2 ^ ((-p.e).toNat - (natLog2 (p.m * 100) - 52)) := by
            rw [← pow_add]
            congr 1
            omega
          rw [ha]
          ring
  unfold mkPosF64
  split_ifs with hq53
  · show asUsizeF64 (some ⟨2 ^ 52, p.e + ((natLog2 (p.m * 100) - 52 : Nat) : Int) + 1⟩) ≤ 100
    simp only [asUsizeF64]
    rw [if_neg (by omega : ¬(0 : Int) ≤ p.e + ((natLog2 (p.m * 100) - 52 : Nat) : Int) + 1)]
    apply nat_div_le _ _ _ (by positivity)
    have hx : (-(p.e + ((natLog2 (p.m * 100) - 52 : Nat) : Int) + 1)).toNat =
        (-p.e).toNat - (natLog2 (p.m * 100) - 52) - 1 := by omega
    rw [hx]
    rw [hq53] at hq
    have hy : (-p.e).toNat - (natLog2 (p.m * 100) - 52) =
        ((-p.e).toNat - (natLog2 (p.m * 100) - 52) - 1) + 1 := by omega
    rw [hy, pow_succ] at hq
    have h53 : (2 : Nat) ^ 53 = 2 * 2 ^ 52 := by norm_num
    omega
  · show asUsizeF64 (some ⟨rndNEDiv (p.m * 100) (2 ^ (natLog2 (p.m * 100) - 52)),
      p.e + ((natLog2 (p.m * 100) - 52 : Nat) : Int)⟩) ≤ 100
    simp only [asUsizeF64]
    rw [if_neg (by omega : ¬(0 : Int) ≤ p.e + ((natLog2 (p.m * 100) - 52 : Nat) : Int))]
    apply nat_div_le _ _ _ (by positivity)
    have hx : (-(p.e + ((natLog2 (p.m * 100) - 52 : Nat) : Int))).toNat =
        (-p.e).toNat - (natLog2 (p.m * 100) - 52) := by omega
    rw [hx]
    calc rndNEDiv (p.m * 100) (2 ^ (natLog2 (p.m * 100) - 52)) ≤
        100 * 2 ^ ((-p.e).toNat - (natLog2 (p.m * 100) - 52)) := hq
      _ = 2 ^ ((-p.e).toNat - (natLog2 (p.m * 100) - 52)) * 100 := Nat.mul_comm _ _

/-- The percentage the program reports for a tick within the measured total
is at most 100: each binary64 step is bounded because conversion is
monotone and `1.0` and `100.0` are representable. -/
lemma rustPercentage_le_100 (c t : Nat) (hct : c ≤ t) (ht : 0 < t) :
    rustPercentage c t ≤ 100 := by
  unfold rustPercentage
  rw [if_neg (by omega : ¬t = 0)]
  rcases Nat.eq_zero_or_pos c with rfl | hc
  · have h0 : ofNatF64 0 = none := rfl
    rw [h0]
    have hdiv : divF64 none (ofNatF64 t) = none := rfl
    rw [hdiv]
    show (0 : Nat) ≤ 100
    norm_num
  · obtain ⟨p1, hp1⟩ := ofNatF64_some c hc
    obtain ⟨p2, hp2⟩ := ofNatF64_some t ht
    have hn1 := ofNatF64_norm c hc p1 hp1
    have hn2 := ofNatF64_norm t ht p2 hp2
    have hval : (p1.m : ℚ) * 2 ^ p1.e ≤ (p2.m : ℚ) * 2 ^ p2.e := by
      have h1 := valF_ofNat c
      have h2 := valF_ofNat t
      rw [hp1] at h1
      rw [hp2] at h2
      have hmono : (natRound53 c : ℚ) ≤ (natRound53 t : ℚ) := by
        exact_mod_cast natRound53_mono c t hct
      calc (p1.m : ℚ) * 2 ^ p1.e = valF (some p1) := rfl
        _ = (natRound53 c : ℚ) := h1
        _ ≤ (natRound53 t : ℚ) := hmono
        _ = valF (some p2) := h2.symm
        _ = (p2.m : ℚ) * 2 ^ p2.e := rfl
    obtain ⟨p, hp⟩ := divF64_some p1 p2
    have hnp := divF64_norm p1 p2 p hn1 hn2 hp
    have hle1 := divF64_le_one p1 p2 p hn1 hn2 hval hp
    rw [hp1, hp2, hp]
    exact mul100_asUsize_le p hnp.1 hnp.2 hle1

/-- Every progress event of the destination loop carries the percentage
`rustPercentage c total` of one of the ticks `c` that the copy primitive
delivered for that event's destination. -/
lemma startCopyLoop_progress (env : CopyEnv) (total : Nat) (ds : List String)
    (p : Nat) (d : String)
    (hmem : CopyEvent.progress p d ∈ (startCopyLoop env total ds).1) :
    ∃ c, c ∈ (env.copyRun d).1 ∧ p = rustPercentage c total := by
  induction ds with
  | nil => simp [startCopyLoop] at hmem
  | cons d' ds ih =>
    rw [startCopyLoop] at hmem
    by_cases hok : (env.copyRun d').2
    · rw [if_pos hok] at hmem
      replace hmem : CopyEvent.progress p d ∈
          CopyEvent.started d' ::
            (((env.copyRun d').1.map fun c =>
                CopyEvent.progress (rustPercentage c total) d') ++
              (startCopyLoop env total ds).1) := hmem
      simp only [List.mem_cons, List.mem_append, List.mem_map] at hmem
      rcases hmem with h | ⟨c, hc, h⟩ | h
      · exact absurd h (by simp)
      · obtain ⟨hp, hd⟩ := CopyEvent.progress.inj h
        exact ⟨c, hd ▸ hc, hp.symm⟩
      · exact ih h
    · rw [if_neg hok] at hmem
      replace hmem : CopyEvent.progress p d ∈
          CopyEvent.started d' ::
            ((env.copyRun d').1.map fun c =>
              CopyEvent.progress (rustPercentage c total) d') := hmem
      simp only [List.mem_cons, List.mem_map] at hmem
      rcases hmem with h | ⟨c, hc, h⟩
      · exact absurd h (by simp)
      · obtain ⟨hp, hd⟩ := CopyEvent.progress.inj h
        exact ⟨c, hd ▸ hc, hp.symm⟩

/-- Characters of a right-aligned string are padding spaces or characters
of the original string. -/
lemma mem_padLeftTo (w : Nat) (s : String) (c : Char)
    (hc : c ∈ (padLeftTo w s).data) : c = ' ' ∨ c ∈ s.data := by
  unfold padLeftTo at hc
  split at hc
  · rcases List.mem_append.mp hc with h | h
    · exact Or.inl (List.eq_of_mem_replicate h)
    · exact Or.inr h
  · exact Or.inr hc

/-- The arrow row of `render_queue` always contains the arrow glyph. -/
lemma gt_mem_arrowLine (q : CopyQueue) : '>' ∈ (arrowLine q).data := by
  unfold arrowLine
  rw [String.data_append]
  exact List.mem_append_right _ (by decide)

/-- `arrow_index` as a closed formula on the destination count. -/
lemma arrowIndexOf_eq (n : Nat) :
    arrowIndexOf n = if n = 0 then 0 else if n ≤ 2 then 1 else n / 2 := by
  match n with
  | 0 => rfl
  | 1 => rfl
  | 2 => rfl
  | m + 3 =>
    have h0 : ¬(m + 3 = 0) := by omega
    have h2 : ¬(m + 3 ≤ 2) := by omega
    rw [if_neg h0, if_neg h2]
    rfl

/-! Claim theorems. -/

/-- C1: with the queue `("src", ["a", "b"])` and an environment in which
copying to destination "a" fails after one 50-byte tick, `start_copy` stops
at the failed `unwrap`: destination "b" is never started and `oncomplete`
is never invoked, contradicting the claim that a per-destination failure is
recorded, copying continues, and `onComplete` runs exactly once. -/
theorem c1_dest_failure_aborts :
    startCopy ⟨some 100, fun d => if d = "a" then ([50], false) else ([100], true)⟩
        ⟨"src", ["a", "b"]⟩ =
      ([CopyEvent.started "a", CopyEvent.progress 50 "a"], false) ∧
    CopyEvent.started "b" ∉
      (startCopy ⟨some 100, fun d => if d = "a" then ([50], false) else ([100], true)⟩
        ⟨"src", ["a", "b"]⟩).1 ∧
    CopyEvent.completed ∉
      (startCopy ⟨some 100, fun d => if d = "a" then ([50], false) else ([100], true)⟩
        ⟨"src", ["a", "b"]⟩).1 := by
  decide

/-- C2 counterexample: a reachable run (source size `2^53 + 1`, one tick of
`2^53` copied bytes, both `u64`-representable) in which the program's
percentage — the rounded `f64` computation — is 100, while the claimed
formula `min 100 (floor (copied * 100 / total))` gives 99: `total as f64`
rounds to `2^53` (ties to even), so the quotient is exactly `1.0`. -/
theorem c2_progress_percentage_cex :
    startCopy ⟨some (2 ^ 53 + 1), fun _ => ([2 ^ 53], true)⟩ ⟨"s", ["d"]⟩ =
      ([CopyEvent.started "d", CopyEvent.progress 100 "d", CopyEvent.completed], true) ∧
    min 100 (2 ^ 53 * 100 / (2 ^ 53 + 1)) = 99 := by
  decide

/-- C2 amended: every progress event of a `start_copy` run whose source
size was measured as `total > 0`, with every tick's byte count within
`total`, reports the saturating `usize` truncation of the `f64` expression
`(c as f64 / total as f64) * 100.` for some tick `c` of its destination —
which can differ from `min 100 (floor (c * 100 / total))` — and every
reported percentage is an integer in `[0, 100]`. -/
theorem c2_progress_percentage (env : CopyEnv) (q : CopyQueue) (total p : Nat)
    (d : String) (hsize : env.getSize = some total) (htotal : 0 < total)
    (hticks : ∀ dest c, c ∈ (env.copyRun dest).1 → c ≤ total)
    (hmem : CopyEvent.progress p d ∈ (startCopy env q).1) :
    p ≤ 100 ∧ ∃ c, c ∈ (env.copyRun d).1 ∧ p = rustPercentage c total := by
  simp only [startCopy, hsize] at hmem
  obtain ⟨c, hc, hp⟩ := startCopyLoop_progress env total q.destinations p d hmem
  have hle := rustPercentage_le_100 c total (hticks d c hc) htotal
  exact ⟨hp ▸ hle, c, hc, hp⟩

/-- C2 witness: in a run with total 200 and a single 50-byte tick on
destination "d", the reported percentage 25 is the truncated `f64` value
and is within bounds. -/
theorem c2_progress_percentage_witness :
    25 ≤ 100 ∧ ∃ c, c ∈ (((⟨some 200, fun _ => ([50], true)⟩ : CopyEnv)).copyRun "d").1 ∧
      25 = rustPercentage c 200 :=
  c2_progress_percentage ⟨some 200, fun _ => ([50], true)⟩ ⟨"s", ["d"]⟩ 200 25 "d"
    rfl (by decide) (fun dest c hc => by simp at hc; omega) (by decide)

/-- C3: when `get_size` on the source fails, `start_copy` panics on the
initial `unwrap` before any destination is touched: the event trace is
empty (no destination started, no progress event) and `oncomplete` is never
invoked. -/
theorem c3_source_unreadable_fatal (env : CopyEnv) (q : CopyQueue)
    (h : env.getSize = none) :
    startCopy env q = ([], false) := by
  simp [startCopy, h]

/-- C3 witness: a concrete run whose source size cannot be measured. -/
theorem c3_source_unreadable_fatal_witness :
    startCopy ⟨none, fun _ => ([], true)⟩ ⟨"src", ["a", "b"]⟩ = ([], false) :=
  c3_source_unreadable_fatal ⟨none, fun _ => ([], true)⟩ ⟨"src", ["a", "b"]⟩ rfl

/-- C4: in the `Copying` variant, `render` draws nothing at all — the match
in `render` handles only `Some(PreCopy(_))` and every other state falls to
the wildcard arm, so no header and no progress content line is drawn,
contradicting the claim (and the module's own doc-comment mockups). -/
theorem c4_render_copying_draws_nothing :
    render ⟨some UIState.copying⟩ = some [] := rfl

/-- C5: the padding computation of `render_lines` underflows: on a content
line of 51 ASCII characters (visible length exactly `BOX_WIDTH`),
`checked_sub` yields `Some(0)` and the subsequent unchecked `- 1` panics
(modelled as `none`); and on a 52-character line `checked_sub` yields
`None`, `unwrap_or(BOX_WIDTH)` restores 51, and the code pads with 50
spaces instead of skipping the padding. -/
theorem c5_padding_underflow :
    lineWidth (String.mk (List.replicate 51 'x')) = none ∧
    renderLine (String.mk (List.replicate 51 'x')) = none ∧
    lineWidth (String.mk (List.replicate 52 'x')) = some 50 := by
  decide

/-- C6 counterexample: the unstyled one-character string "é" has visible
length 2 (its UTF-8 byte count), not its character count 1, so the
measurement `line.unformat().len()` is not the character count of the
string with escape sequences removed. -/
theorem c6_visible_length_bytes_cex :
    stripAnsi "é" = "é" ∧ visibleLen "é" = 2 ∧ ("é" : String).length = 1 ∧
    visibleLen "é" ≠ ("é" : String).length := by
  decide

/-- C6 amended: the visible-length measurement equals the UTF-8 byte count
(not the character count) of the string with escape sequences removed; on a
string without the escape character it is the string's own byte count, and
additionally its character count when the string is all-ASCII. -/
theorem c6_visible_length_bytes (s : String)
    (hesc : ∀ c ∈ s.data, c ≠ escChar) :
    visibleLen s = byteLen s ∧
    ((∀ c ∈ s.data, c.toNat ≤ 0x7f) → visibleLen s = s.length) := by
  have h1 : stripAnsi s = s := stripAnsi_of_noEsc s hesc
  constructor
  · show byteLen (stripAnsi s) = byteLen s
    rw [h1]
  · intro hascii
    show byteLen (stripAnsi s) = s.length
    rw [h1, byteLen_of_ascii s hascii]

/-- C6 witness: the amended statement at the unstyled ASCII string "abc". -/
theorem c6_visible_length_bytes_witness :
    visibleLen "abc" = byteLen "abc" ∧
    ((∀ c ∈ ("abc" : String).data, c.toNat ≤ 0x7f) →
      visibleLen "abc" = ("abc" : String).length) :=
  c6_visible_length_bytes "abc" (by decide)

/-- C7: `get_bytes_string` prints `floor (bytes / 1024 ^ k)` followed by
the lowercase suffix of the chosen unit exponent `k`; for positive input
the chosen unit satisfies `1024 ^ k ≤ bytes` and is the largest such unit
not above tb; the unit is monotone in the input; and the spec's examples
hold, with 0 mapping to "0b". -/
theorem c7_byte_formatter :
    (∀ b, getBytesString b = toString (b / 1024 ^ unitIdx b) ++ unitSuffix (unitIdx b)) ∧
    (∀ b, 1 ≤ b → 1024 ^ unitIdx b ≤ b) ∧
    (∀ b k, k ≤ 4 → 1024 ^ k ≤ b → k ≤ unitIdx b) ∧
    (∀ a b, a ≤ b → unitIdx a ≤ unitIdx b) ∧
    getBytesString 0 = "0b" ∧ getBytesString 1023 = "1023b" ∧
    getBytesString 1024 = "1kb" ∧ getBytesString 1048576 = "1mb" ∧
    getBytesString 1073741824 = "1gb" ∧ getBytesString (2 * 1024 ^ 4) = "2tb" := by
  refine ⟨?_, ?_, ?_, ?_, by decide, by decide, by decide, by decide, by decide, by decide⟩
  · intro b
    unfold getBytesString unitIdx
    split_ifs <;> simp [unitSuffix]
  · intro b hb
    unfold unitIdx
    split_ifs with h4 h3 h2 h1
    · exact h4
    · exact h3
    · exact h2
    · exact h1
    · simpa using hb
  · intro b k hk4 hkb
    unfold unitIdx
    split_ifs with h4 h3 h2 h1
    · exact hk4
    · by_contra hcon
      push_neg at hcon
      have hk : k = 4 := by omega
      exact h4 (hk ▸ hkb)
    · by_contra hcon
      push_neg at hcon
      exact h3 (le_trans (Nat.pow_le_pow_right (by norm_num) (by omega : 3 ≤ k)) hkb)
    · by_contra hcon
      push_neg at hcon
      exact h2 (le_trans (Nat.pow_le_pow_right (by norm_num) (by omega : 2 ≤ k)) hkb)
    · by_contra hcon
      push_neg at hcon
      have hp : (1024 : Nat) ^ 1 ≤ 1024 ^ k :=
        Nat.pow_le_pow_right (by norm_num) (by omega : 1 ≤ k)
      rw [pow_one] at hp
      exact h1 (le_trans hp hkb)
  · intro a b hab
    unfold unitIdx
    generalize (1024 : Nat) ^ 4 = p4
    generalize (1024 : Nat) ^ 3 = p3
    generalize (1024 : Nat) ^ 2 = p2
    split_ifs <;> omega

/-- C7 witness: the universally quantified parts of the formatter theorem
instantiated at 2048 (and 512 for monotonicity). -/
theorem c7_byte_formatter_witness :
    getBytesString 2048 = toString (2048 / 1024 ^ unitIdx 2048) ++ unitSuffix (unitIdx 2048) ∧
    1024 ^ unitIdx 2048 ≤ 2048 ∧
    1 ≤ unitIdx 2048 ∧
    unitIdx 512 ≤ unitIdx 2048 :=
  ⟨c7_byte_formatter.1 2048,
   c7_byte_formatter.2.1 2048 (by decide),
   c7_byte_formatter.2.2.1 2048 1 (by decide) (by decide),
   c7_byte_formatter.2.2.2.1 512 2048 (by decide)⟩

/-- C8: `render_queue`'s layout parameters: the column split is the source
name's (byte) length capped at 15, plus 4 — so "abc" gives 7 and a
30-character name gives 19 — and the arrow row is 0 for no destinations, 1
for 1 or 2 destinations, and `floor (count / 2)` otherwise — so 5
destinations give 2 and 8 give 4. -/
theorem c8_layout_params :
    (∀ q : CopyQueue, leftColumnSpacing q = min (byteLen q.source) 15 + 4) ∧
    (∀ q : CopyQueue, arrowIndex q =
      if q.destinations.length = 0 then 0
      else if q.destinations.length ≤ 2 then 1
      else q.destinations.length / 2) ∧
    leftColumnSpacing ⟨"abc", []⟩ = 7 ∧
    leftColumnSpacing ⟨"abcdefghijklmnopqrstuvwxyz1234", []⟩ = 19 ∧
    arrowIndex ⟨"s", ["1", "2", "3", "4", "5"]⟩ = 2 ∧
    arrowIndex ⟨"s", ["1", "2", "3", "4", "5", "6", "7", "8"]⟩ = 4 := by
  refine ⟨fun q => ?_, fun q => arrowIndexOf_eq q.destinations.length,
    by decide, by decide, by decide, by decide⟩
  unfold leftColumnSpacing
  split_ifs <;> omega

/-- C9: `truncate` keeps at most `n` characters, is the identity on strings
of at most `n` characters, and is idempotent. -/
theorem c9_truncate_spec (s : String) (n : Nat) :
    (truncate s n).length ≤ n ∧
    (s.length ≤ n → truncate s n = s) ∧
    truncate (truncate s n) n = truncate s n := by
  obtain ⟨l⟩ := s
  refine ⟨?_, ?_, ?_⟩
  · show (l.take n).length ≤ n
    rw [List.length_take]
    exact min_le_left n l.length
  · intro h
    show String.mk (l.take n) = ⟨l⟩
    rw [List.take_of_length_le h]
  · show String.mk ((l.take n).take n) = ⟨l.take n⟩
    rw [List.take_take]
    simp

/-- C9 witness: a short string is untouched by a larger bound. -/
theorem c9_truncate_spec_witness : truncate "ab" 5 = "ab" :=
  (c9_truncate_spec "ab" 5).2.1 (by decide)

/-- C10: for a queue with exactly one destination the arrow index is 1
while the single destination row has index 0, so the rendered queue rows
consist of the one padded vertical-rule row, and no row carries the arrow
glyph or equals the source-name arrow row. -/
theorem c10_single_dest_no_arrow (q : CopyQueue) (h : q.destinations.length = 1) :
    arrowIndex q = 1 ∧
    queueRowLines q = [nonArrowLine q] ∧
    ∀ line ∈ queueRowLines q, '>' ∉ line.data ∧ line ≠ arrowLine q := by
  obtain ⟨src, dests⟩ := q
  obtain ⟨d, rfl⟩ := List.length_eq_one.mp h
  refine ⟨rfl, rfl, ?_⟩
  intro line hline
  have hline' : line = nonArrowLine ⟨src, [d]⟩ := by
    have : queueRowLines ⟨src, [d]⟩ = [nonArrowLine ⟨src, [d]⟩] := rfl
    rw [this] at hline
    simpa using hline
  subst hline'
  have hgt : '>' ∉ (nonArrowLine (⟨src, [d]⟩ : CopyQueue)).data := by
    intro hmem
    rcases mem_padLeftTo _ _ _ hmem with h1 | h1
    · exact absurd h1 (by decide)
    · exact absurd h1 (by decide)
  refine ⟨hgt, fun heq => ?_⟩
  exact hgt (heq ▸ gt_mem_arrowLine ⟨src, [d]⟩)

/-- C10 witness: the concrete single-destination queue ("abc", ["d"]). -/
theorem c10_single_dest_no_arrow_witness :
    arrowIndex ⟨"abc", ["d"]⟩ = 1 ∧
    queueRowLines ⟨"abc", ["d"]⟩ = [nonArrowLine ⟨"abc", ["d"]⟩] ∧
    ∀ line ∈ queueRowLines (⟨"abc", ["d"]⟩ : CopyQueue),
      '>' ∉ line.data ∧ line ≠ arrowLine ⟨"abc", ["d"]⟩ :=
  c10_single_dest_no_arrow ⟨"abc", ["d"]⟩ rfl

end DeploymentCopy
